import Mathlib

/-!
# CTC beam search decoder — shallow embedding

Embedding of `tensorflow/core/util/ctc/ctc_beam_search.h`
(`CTCBeamSearchDecoder`: `Reset`, `Step`, `TopPaths`, `Decode`).

Representation of log-probabilities.  The C++ code stores `float`
log-probabilities and combines them with `LogSumExp`, `+`, and comparisons,
with the sentinel `kLogZero` (minus infinity) meaning "probability zero /
inactive".  This development represents each log-probability exactly by its
exponential, a rational number:

* a log-probability `x` is modelled by the rational `exp x`;
* the sentinel `kLogZero = -inf` is modelled by `0`;
* `LogSumExp a b = log (exp a + exp b)` is modelled by addition;
* adding two log-probabilities (multiplying probabilities) is modelled by
  multiplication;
* subtracting the input's maximum coefficient is modelled by dividing by the
  maximum;
* since `exp` is a strictly monotone bijection from `{-inf} ∪ ℝ` onto the
  nonnegative reals, every comparison (`>` against `kLogZero`, beam-admission
  comparisons, the beam ordering) is preserved exactly.

This is an exact-real semantics of the float program: rounding of `float`
arithmetic is deliberately abstracted away, the arithmetic structure and all
control flow are kept.

The repository ships only `ctc_beam_search.h`; the helper headers it includes
(`ctc_beam_entry.h` with `BeamEntry`/`BeamProbability`/`kLogZero`/`LogSumExp`,
`ctc_beam_scorer.h` with `BaseBeamScorer`, `ctc_decoder.h` with the
`CTCDecoder` base class, and `gtl/top_n.h` with the bounded best-N container)
are not under `src/`; those definitions are modelled from the specification
and are marked `Modelled from the spec:` below.

The C++ mutates a pointer-linked tree in place; here the tree is an arena
(`List (BeamEntry σ)` indexed by natural numbers), the beam is a list of
arena indices kept in descending `newp.total` order, and every mutation is an
explicit functional update.
-/

namespace CTC

/-- Modelled from the spec: the negative-infinity sentinel `kLogZero` of
`ctc_loss_util.h` ("probability zero"), rendered in the linear domain as the
rational `0`. -/
def kLogZero : ℚ := 0

/-- Modelled from the spec: the numerically-stable log-sum
`log (exp a + exp b)` of `ctc_loss_util.h`, rendered in the linear domain as
addition (combining with the sentinel leaves the other operand unchanged:
`0 + x = x`). -/
def LogSumExp (a b : ℚ) : ℚ := a + b

/-- Modelled from the spec: `BeamProbability` of `ctc_beam_entry.h` — three
log-probabilities (`total`, `blank`, `label`) for one hypothesis at one
timestep, each rendered in the linear domain. -/
structure BeamProbability where
  total : ℚ
  blank : ℚ
  label : ℚ
deriving DecidableEq, Repr

/-- Modelled from the spec: `BeamProbability::Reset()` sets all three fields
to the negative-infinity sentinel (deactivation). -/
def BeamProbability.reset : BeamProbability :=
  ⟨kLogZero, kLogZero, kLogZero⟩

/-- Modelled from the spec: one `BeamEntry` node of the hypothesis tree of
`ctc_beam_entry.h`: a label (`-1` for the root), a non-owning back-reference
to the parent (an arena index), the owned lazily-created children (arena
indices), the `old`/`new` probability pairs, and the opaque scorer state. -/
structure BeamEntry (σ : Type) where
  parent : Option ℕ
  label : ℤ
  children : List ℕ
  oldp : BeamProbability
  newp : BeamProbability
  state : σ
deriving DecidableEq, Repr

instance [Inhabited σ] : Inhabited (BeamEntry σ) :=
  ⟨{ parent := none, label := -1, children := [],
     oldp := BeamProbability.reset, newp := BeamProbability.reset,
     state := default }⟩

/-- Modelled from the spec: `BeamEntry::Active()` — true iff `new.total` is
strictly greater than the negative-infinity sentinel. -/
def BeamEntry.Active (e : BeamEntry σ) : Bool :=
  decide (kLogZero < e.newp.total)

/-- Arena lookup: the node stored at index `i` (a dummy inactive node for an
out-of-range index, which the C++ never dereferences). -/
def nd [Inhabited σ] (nodes : List (BeamEntry σ)) (i : ℕ) : BeamEntry σ :=
  nodes.getD i default

/-- Modelled from the spec: the scorer capability interface of
`ctc_beam_scorer.h` (`BaseBeamScorer`): state initialization, child-state
production (`ExpandState`), the expansion score applied to the "previous"
probability (`GetStateExpansionScore`), and the end-of-sequence pieces.
Scores are rendered in the linear domain. -/
structure BeamScorer (σ : Type) where
  initState : σ
  expandState : σ → ℤ → ℤ → σ
  stateExpansionScore : σ → ℚ → ℚ
  expandStateEnd : σ → σ
  stateEndExpansionScore : σ → ℚ

/-- Modelled from the spec: the no-op scorer (`BaseBeamScorer` itself) "adds
zero everywhere": the expansion score returns the `previous` probability
unchanged and the end-of-sequence adjustment is `0` (linear `1`). -/
def noopScorer : BeamScorer Unit :=
  { initState := ()
    expandState := fun _ _ _ => ()
    stateExpansionScore := fun _ previous => previous
    expandStateEnd := fun _ => ()
    stateEndExpansionScore := fun _ => 1 }

/-- Decoder configuration: `num_classes` (label space size including the
blank, which is fixed as the last index) and `beam_width`. -/
structure DecoderConfig where
  numClasses : ℕ
  beamWidth : ℕ
deriving DecidableEq, Repr

/-- The decoder state: the arena of tree nodes (the root is index `0`) and
the beam `leaves_`, a list of arena indices kept in descending `newp.total`
order. -/
structure DecoderState (σ : Type) where
  nodes : List (BeamEntry σ)
  leaves : List ℕ
deriving DecidableEq, Repr

/-- The input coefficient for a label: `input(l)`. -/
def inputAt (inp : List ℚ) (l : ℤ) : ℚ :=
  inp.getD l.toNat 0

/-- `input.maxCoeff()` of the Eigen array. -/
def maxCoeff : List ℚ → ℚ
  | [] => 0
  | x :: xs => xs.foldl max x

/-- `input -= input.maxCoeff()` — in the linear domain, dividing every
coefficient by the maximum. -/
def normalize (v : List ℚ) : List ℚ :=
  v.map (fun x => x / maxCoeff v)

/-- Modelled from the spec: insertion into the bounded best-N structure's
ordered list (`gtl::TopN` with `BeamComparer`, which orders by `newp.total`
descending; ties are broken by a stable secondary key, i.e. existing members
with an equal total stay in front). -/
def beamInsert [Inhabited σ] (nodes : List (BeamEntry σ)) :
    List ℕ → ℕ → List ℕ
  | [], i => [i]
  | j :: t, i =>
    if (nd nodes i).newp.total ≤ (nd nodes j).newp.total then
      j :: beamInsert nodes t i
    else
      i :: j :: t

/-- Modelled from the spec: `TopN::push` — insert, and if the size exceeds
`beam_width`, evict the current minimum (the last element of the
descending-ordered list). -/
def beamPush [Inhabited σ] (nodes : List (BeamEntry σ)) (width : ℕ)
    (l : List ℕ) (i : ℕ) : List ℕ :=
  if width < (beamInsert nodes l i).length then (beamInsert nodes l i).dropLast
  else beamInsert nodes l i

/-- Modelled from the spec: `TopN::peek_bottom()` — the current minimum,
i.e. the last element of the descending-ordered list. -/
def peekBottom (l : List ℕ) : ℕ :=
  l.getLastD 0

/-- Modelled from the spec: `BeamEntry::PopulateChildren(L)` — allocate one
child per non-blank label value `0 .. L-1`, each initialized with
`label = index`, both probability pairs reset, and `parent` set to the
expanding node.  Fresh children are appended to the arena. -/
def populateChildren [Inhabited σ] (nodes : List (BeamEntry σ)) (b : ℕ)
    (L : ℕ) : List (BeamEntry σ) :=
  let n := nodes.length
  let kids : List (BeamEntry σ) :=
    (List.range L).map (fun l =>
      { parent := some b, label := (l : ℤ), children := [],
        oldp := BeamProbability.reset, newp := BeamProbability.reset,
        state := default })
  let e := nd nodes b
  (nodes ++ kids).set b
    { e with children := (List.range L).map (fun l => n + l) }

/-- Modelled from the spec: `BeamEntry::LabelSeq`'s walk along the parent
chain (child to root, skipping the root itself), with fuel for termination. -/
def pathToRoot [Inhabited σ] (nodes : List (BeamEntry σ)) :
    ℕ → ℕ → List ℤ
  | 0, _ => []
  | fuel + 1, i =>
    match (nd nodes i).parent with
    | none => []
    | some p => (nd nodes i).label :: pathToRoot nodes fuel p

/-- Collapse consecutive duplicate labels (`merge_repeated`). -/
def mergeDup : List ℤ → List ℤ
  | [] => []
  | [a] => [a]
  | a :: b :: t => if a = b then mergeDup (b :: t) else a :: mergeDup (b :: t)

/-- Modelled from the spec: `BeamEntry::LabelSeq(merge_repeated)` — the label
sequence along the parent chain in root-to-node order; with `merge_repeated`,
consecutive duplicate labels collapse to one. -/
def LabelSeq [Inhabited σ] (nodes : List (BeamEntry σ)) (i : ℕ)
    (mergeRepeated : Bool) : List ℤ :=
  let s := (pathToRoot nodes nodes.length i).reverse
  if mergeRepeated then mergeDup s else s

/-- `CTCBeamSearchDecoder::Reset()`: a fresh root node with sentinel label
`-1`, `new.total = new.blank = 0` (log of 1, linear `1`), scorer state
initialized, pushed as the sole member of the cleared beam. -/
def Reset (S : BeamScorer σ) : DecoderState σ :=
  { nodes := [{ parent := none, label := -1, children := [],
                oldp := BeamProbability.reset,
                newp := { total := 1, blank := 1, label := kLogZero },
                state := S.initState }]
    leaves := [0] }

/-- The admission test `is_candidate` of `CTCBeamSearchDecoder::Step`: the
total is strictly above the sentinel, and either the beam is not full or the
total strictly exceeds the current beam minimum's `newp.total`. -/
def isCandidate [Inhabited σ] (cfg : DecoderConfig)
    (nodes : List (BeamEntry σ)) (leaves : List ℕ)
    (prob : BeamProbability) : Bool :=
  decide (kLogZero < prob.total) &&
    (decide (leaves.length < cfg.beamWidth) ||
      decide ((nd nodes (peekBottom leaves)).newp.total < prob.total))

/-- The first per-branch loop of `Step`: `b->oldp = b->newp` for every entry
extracted from the beam. -/
def shiftOld [Inhabited σ] (nodes : List (BeamEntry σ))
    (branches : List ℕ) : List (BeamEntry σ) :=
  branches.foldl (fun ns i =>
    let b := nd ns i
    ns.set i { b with oldp := b.newp }) nodes

/-- The second per-branch loop body of `Step`: accumulate the scorer's
expansion score into `newp.label` when the parent is active (with `previous`
being `parent.oldp.blank` on a repeated label, else `parent.oldp.total`),
multiply in (log: add) the input coefficient of the node's own label, set
`newp.blank = oldp.total * input(blank)`, recombine `newp.total`, and push
the entry back into the beam. -/
def updateBranch [Inhabited σ] (cfg : DecoderConfig) (S : BeamScorer σ)
    (inp : List ℚ) (st : List (BeamEntry σ) × List ℕ) (i : ℕ) :
    List (BeamEntry σ) × List ℕ :=
  let nodes := st.1
  let b := nd nodes i
  let lab : ℚ :=
    match b.parent with
    | none => b.newp.label
    | some pi =>
      let par := nd nodes pi
      let l0 :=
        if par.Active then
          LogSumExp b.newp.label
            (S.stateExpansionScore b.state
              (if b.label = par.label then par.oldp.blank else par.oldp.total))
        else b.newp.label
      l0 * inputAt inp b.label
  let blank := b.oldp.total * inputAt inp ((cfg.numClasses : ℤ) - 1)
  let nodes' := nodes.set i { b with newp := ⟨LogSumExp blank lab, blank, lab⟩ }
  (nodes', beamPush nodes' cfg.beamWidth st.2 i)

/-- The per-child body of `Step`'s growth loop: an inactive child gets its
scorer state expanded and `newp` set to the expansion values
(`blank = kLogZero`, `total = label`); if the fresh pair passes the admission
test the child is pushed (and the captured pre-push bottom's `newp` is reset
when the beam ends up holding exactly `beam_width` entries), otherwise both
of the child's probability pairs are reset. -/
def growChild [Inhabited σ] (cfg : DecoderConfig) (S : BeamScorer σ)
    (inp : List ℚ) (bIdx : ℕ) (st : List (BeamEntry σ) × List ℕ) (ci : ℕ) :
    List (BeamEntry σ) × List ℕ :=
  let nodes := st.1
  let leaves := st.2
  let b := nd nodes bIdx
  let c := nd nodes ci
  if c.Active then st
  else
    let cstate := S.expandState b.state b.label c.label
    let previous := if c.label = b.label then b.oldp.blank else b.oldp.total
    let lab := inputAt inp c.label * S.stateExpansionScore cstate previous
    let cnewp : BeamProbability := ⟨lab, kLogZero, lab⟩
    let nodes1 := nodes.set ci { c with state := cstate, newp := cnewp }
    if isCandidate cfg nodes1 leaves cnewp then
      let bottom := peekBottom leaves
      let leaves1 := beamPush nodes1 cfg.beamWidth leaves ci
      if leaves1.length = cfg.beamWidth then
        let be := nd nodes1 bottom
        (nodes1.set bottom { be with newp := BeamProbability.reset }, leaves1)
      else (nodes1, leaves1)
    else
      (nodes.set ci
        { c with state := cstate, oldp := BeamProbability.reset,
                 newp := BeamProbability.reset }, leaves)

/-- The per-branch body of `Step`'s growth loop: skip the branch unless its
`oldp` passes the admission test; otherwise lazily populate its children and
run the per-child growth over them. -/
def growBranch [Inhabited σ] (cfg : DecoderConfig) (S : BeamScorer σ)
    (inp : List ℚ) (st : List (BeamEntry σ) × List ℕ) (bIdx : ℕ) :
    List (BeamEntry σ) × List ℕ :=
  if isCandidate cfg st.1 st.2 (nd st.1 bIdx).oldp then
    let nodes1 :=
      if (nd st.1 bIdx).children.isEmpty then
        populateChildren st.1 bIdx (cfg.numClasses - 1)
      else st.1
    (nd nodes1 bIdx).children.foldl (growChild cfg S inp bIdx) (nodes1, st.2)
  else st

/-- `CTCBeamSearchDecoder::Step(raw_input)`: normalize the input by its
maximum coefficient, fail (`CHECK_EQ`) unless its length is `num_classes`,
extract the beam, shift `newp` into `oldp`, update every extracted branch and
re-push it, then grow new leaves.  The `CHECK` failure is modelled as `none`:
the caller's state is left exactly as it was. -/
def Step [Inhabited σ] (cfg : DecoderConfig) (S : BeamScorer σ)
    (st : DecoderState σ) (rawInput : List ℚ) : Option (DecoderState σ) :=
  if rawInput.length ≠ cfg.numClasses then none
  else
    let inp := normalize rawInput
    let branches := st.leaves
    let nodes0 := shiftOld st.nodes branches
    let p2 := branches.foldl (updateBranch cfg S inp) (nodes0, [])
    let p3 := branches.foldl (growBranch cfg S inp) p2
    some ⟨p3.1, p3.2⟩

/-- `CTCBeamSearchDecoder::TopPaths(n, merge_repeated)`: fails
(`CHECK_LE`) when `n` exceeds `beam_width` or the current beam occupancy;
otherwise re-ranks the beam's members into a temporary best-`n` structure and
returns, in descending `newp.total` order, each of the top `n` label
sequences with its (linear-domain) log-probability. -/
def TopPaths [Inhabited σ] (cfg : DecoderConfig) (st : DecoderState σ)
    (n : ℕ) (mergeRepeated : Bool) : Option (List (List ℤ × ℚ)) :=
  if cfg.beamWidth < n ∨ st.leaves.length < n then none
  else
    let branches := st.leaves.foldl (beamPush st.nodes n) []
    some ((branches.take n).map (fun i =>
      (LabelSeq st.nodes i mergeRepeated, (nd st.nodes i).newp.total)))

/-- The end-of-sequence finalization inside `CTCBeamSearchDecoder::Decode`:
every beam member's scorer state is end-expanded, the scorer's end expansion
score is multiplied (log: added) into `newp.total`, and the entry is
re-pushed into the cleared beam. -/
def FinalizeBeam [Inhabited σ] (cfg : DecoderConfig) (S : BeamScorer σ)
    (st : DecoderState σ) : DecoderState σ :=
  let p := st.leaves.foldl
    (fun (acc : List (BeamEntry σ) × List ℕ) (i : ℕ) =>
      let e := nd acc.1 i
      let s' := S.expandStateEnd e.state
      let np := e.newp
      let nodes' := acc.1.set i
        { e with state := s',
                 newp := { np with total := np.total * S.stateEndExpansionScore s' } }
      (nodes', beamPush nodes' cfg.beamWidth acc.2 i))
    (st.nodes, [])
  ⟨p.1, p.2⟩

/-- `CTCBeamSearchDecoder::Decode` for one sequence of the batch: `Reset`,
one `Step` per timestep, finalize, `TopPaths`, and write the ranked label
sequences together with their scores.  The C++ writes each score as the
negated log-probability `-log p`; its linear-domain rendering is the
reciprocal `p⁻¹` (the negation of a log-value corresponds to inverting the
probability, and `-log p ≥ 0` iff `p⁻¹ ≥ 1`). -/
def Decode [Inhabited σ] (cfg : DecoderConfig) (S : BeamScorer σ)
    (inputs : List (List ℚ)) (topN : ℕ) (mergeRepeated : Bool) :
    Option (List (List ℤ) × List ℚ) :=
  match inputs.foldlM (fun st v => Step cfg S st v) (Reset S) with
  | none => none
  | some stN =>
    match TopPaths cfg (FinalizeBeam cfg S stN) topN mergeRepeated with
    | none => none
    | some tp => some (tp.map Prod.fst, tp.map (fun p => (p.2)⁻¹))

/-! ## Theorems -/

unseal Rat.add Rat.mul Rat.inv Rat.sub in
/-- C5: on the canonical two-timestep example `P = [[0.3, 0.7], [0.4, 0.6]]`
(columns: label `a` = `0`, blank = `1`) with `beam_width = 10` (no pruning)
and the no-op scorer, `Decode` ranks the sequence `[a]` above the empty
sequence and returns their scores; the decoder's per-timestep max
normalization divides the probabilities by `0.7` and `0.6`, so the returned
totals, multiplied back by `0.7 * 0.6`, recover exactly `P(l=[a]) = 0.58` and
`P(l=empty) = 0.42`.  (`Decode`'s score entries are the linear renderings
`p⁻¹` of the negated log-probabilities the C++ writes.) -/
theorem decode_canonical_example :
    Decode ⟨2, 10⟩ noopScorer [[3/10, 7/10], [4/10, 6/10]] 2 false
      = some ([[0], []], [(29/21 : ℚ)⁻¹, 1])
    ∧ (29/21 : ℚ) * (7/10 * 6/10) = 58/100
    ∧ (1 : ℚ) * (7/10 * 6/10) = 42/100 := by
  refine ⟨by decide, by norm_num, by norm_num⟩

unseal Rat.add Rat.mul Rat.inv Rat.sub in
/-- C3 (failing input): with `num_classes = 2`, `beam_width = 2`, a single
`Step` after `Reset` pushes the root's child while the beam holds only
`1 < 2` entries; the code nevertheless resets the pre-push bottom (the root)
because it tests fullness *after* the push, so after the `Step` the beam
references node `0` even though node `0` is inactive — contradicting the
claim that the pre-push minimum is deactivated only when the beam was already
full, and that every beam member stays active. -/
theorem step_deactivates_beam_member :
    (Reset (σ := Unit) noopScorer).leaves.length = 1
    ∧ 1 < (2 : ℕ)
    ∧ (Step ⟨2, 2⟩ noopScorer (Reset noopScorer) [1/2, 1/2]).map
        (fun s => (s.leaves, (nd s.nodes 0).Active)) = some ([0, 1], false) := by
  refine ⟨rfl, by decide, by decide⟩

/-- C6 (amended): for every decoded sequence, the scores `Decode` writes are
exactly the negations (log domain) of the final `new.total` values of the
ranked paths that `TopPaths` returns after finalization — rendered in the
linear domain as reciprocals — and the paths are those ranked label
sequences.  The claim's further assertion that these scores are always
non-negative is false (see the counterexample): `Step`'s per-timestep max
normalization can leave final totals above `1`. -/
theorem decode_scores_are_negated_totals [Inhabited σ] (cfg : DecoderConfig)
    (S : BeamScorer σ) (inputs : List (List ℚ)) (topN : ℕ)
    (mergeRepeated : Bool) (paths : List (List ℤ)) (scores : List ℚ)
    (h : Decode cfg S inputs topN mergeRepeated = some (paths, scores)) :
    ∃ stN tp,
      inputs.foldlM (fun st v => Step cfg S st v) (Reset S) = some stN
      ∧ TopPaths cfg (FinalizeBeam cfg S stN) topN mergeRepeated = some tp
      ∧ paths = tp.map Prod.fst
      ∧ scores = tp.map (fun p => (p.2)⁻¹) := by
  unfold Decode at h
  rcases hs : inputs.foldlM (fun st v => Step cfg S st v) (Reset S) with _ | stN
  · rw [hs] at h
    exact absurd h (by simp)
  · rw [hs] at h
    dsimp only at h
    rcases ht : TopPaths cfg (FinalizeBeam cfg S stN) topN mergeRepeated
      with _ | tp
    · rw [ht] at h
      exact absurd h (by simp)
    · rw [ht] at h
      simp only [Option.some.injEq, Prod.mk.injEq] at h
      exact ⟨stN, tp, rfl, ht, h.1.symm, h.2.symm⟩

unseal Rat.add Rat.mul Rat.inv Rat.sub in
/-- Witness for `decode_scores_are_negated_totals` on the canonical
two-timestep example. -/
theorem decode_scores_are_negated_totals_witness :
    ∃ stN tp,
      ([[3/10, 7/10], [4/10, 6/10]] : List (List ℚ)).foldlM
          (fun st v => Step ⟨2, 10⟩ noopScorer st v) (Reset noopScorer)
        = some stN
      ∧ TopPaths ⟨2, 10⟩ (FinalizeBeam ⟨2, 10⟩ noopScorer stN) 2 false
        = some tp
      ∧ ([[0], []] : List (List ℤ)) = tp.map Prod.fst
      ∧ ([(29/21 : ℚ)⁻¹, 1] : List ℚ) = tp.map (fun p => (p.2)⁻¹) :=
  decode_scores_are_negated_totals ⟨2, 10⟩ noopScorer
    [[3/10, 7/10], [4/10, 6/10]] 2 false [[0], []] [(29/21 : ℚ)⁻¹, 1]
    (by decide)

unseal Rat.add Rat.mul Rat.inv Rat.sub in
/-- C6 (counterexample): decoding the two-timestep uniform input
`[[0.5, 0.5], [0.5, 0.5]]` (no-op scorer, `beam_width = 4`), the top path's
final `new.total` is `3` (the per-timestep max normalization rescales each
column to `[1, 1]`), so the score the C++ writes is `-log 3 < 0`: its linear
rendering `3⁻¹ = 1/3` lies below `1`.  The claim that every returned score is
non-negative is false. -/
theorem decode_score_below_one :
    Decode ⟨2, 4⟩ noopScorer [[1/2, 1/2], [1/2, 1/2]] 1 false
      = some ([[0]], [(1/3 : ℚ)])
    ∧ ¬ (1 ≤ (1/3 : ℚ)) := by
  refine ⟨by decide, by norm_num⟩

/-- C9: after `Reset`, the decoder holds exactly one node, a fresh root with
the sentinel label `-1`, `new.total = new.blank = 0` in the log domain
(linear `1`), scorer state initialized by the scorer, and the beam contains
exactly this root as its sole member. -/
theorem reset_fresh_root [Inhabited σ] (S : BeamScorer σ) :
    (Reset S).nodes.length = 1
    ∧ (nd (Reset S).nodes 0).label = -1
    ∧ (nd (Reset S).nodes 0).newp.total = 1
    ∧ (nd (Reset S).nodes 0).newp.blank = 1
    ∧ (nd (Reset S).nodes 0).state = S.initState
    ∧ (Reset S).leaves = [0] :=
  ⟨rfl, rfl, rfl, rfl, rfl, rfl⟩

/-- C8: `Step` fails exactly when the input vector's length differs from
`num_classes`; the `CHECK` fires before the decoder's state is touched, which
the embedding renders by returning `none` and leaving the caller's state as
it was (a `Step` either returns a fully updated state or no state at all). -/
theorem step_length_check [Inhabited σ] (cfg : DecoderConfig)
    (S : BeamScorer σ) (st : DecoderState σ) (v : List ℚ) :
    Step cfg S st v = none ↔ v.length ≠ cfg.numClasses := by
  by_cases h : v.length = cfg.numClasses <;> simp [Step, h]

lemma foldl_max_mul (k : ℚ) (hk : 0 ≤ k) :
    ∀ (xs : List ℚ) (a : ℚ), (xs.map (fun x => k * x)).foldl max (k * a)
      = k * xs.foldl max a := by
  intro xs
  induction xs with
  | nil => intro a; rfl
  | cons y ys ih =>
    intro a
    simp only [List.map_cons, List.foldl_cons]
    rw [← mul_max_of_nonneg _ _ hk, ih]

lemma maxCoeff_mul (k : ℚ) (hk : 0 ≤ k) (v : List ℚ) :
    maxCoeff (v.map (fun x => k * x)) = k * maxCoeff v := by
  cases v with
  | nil => simp [maxCoeff]
  | cons x xs => simpa [maxCoeff] using foldl_max_mul k hk xs x

lemma normalize_mul (k : ℚ) (hk : 0 < k) (v : List ℚ) :
    normalize (v.map (fun x => k * x)) = normalize v := by
  unfold normalize
  rw [maxCoeff_mul k hk.le v, List.map_map]
  refine List.map_congr_left (fun x _ => ?_)
  simp only [Function.comp_apply]
  exact mul_div_mul_left x (maxCoeff v) hk.ne'

/-- C10: `Step` subtracts the input's maximum coefficient before using it, so
a per-timestep additive shift of the log-probability vector (rendered in the
linear domain as multiplying every coefficient by a positive constant `k`)
produces an identical decoder state — and hence identical label sequences and
scores downstream. -/
theorem step_shift_invariance [Inhabited σ] (cfg : DecoderConfig)
    (S : BeamScorer σ) (st : DecoderState σ) (v : List ℚ) (k : ℚ)
    (hk : 0 < k) :
    Step cfg S st (v.map (fun x => k * x)) = Step cfg S st v := by
  unfold Step
  rw [normalize_mul k hk v, List.length_map]

/-- Witness for `step_shift_invariance` at a concrete input. -/
theorem step_shift_invariance_witness :
    (0 : ℚ) < 2
    ∧ Step ⟨2, 2⟩ noopScorer (Reset noopScorer)
        (([1/2, 1/2] : List ℚ).map (fun x => 2 * x))
      = Step ⟨2, 2⟩ noopScorer (Reset noopScorer) [1/2, 1/2] :=
  ⟨by norm_num,
   step_shift_invariance ⟨2, 2⟩ noopScorer (Reset noopScorer) [1/2, 1/2] 2
     (by norm_num)⟩

lemma nd_set_self [Inhabited σ] (nodes : List (BeamEntry σ)) (i : ℕ)
    (e : BeamEntry σ) (h : i < nodes.length) :
    nd (nodes.set i e) i = e := by
  simp [nd, List.getD_eq_getElem?_getD, List.getElem?_set_self h]

lemma nd_set_ne [Inhabited σ] (nodes : List (BeamEntry σ)) (i j : ℕ)
    (e : BeamEntry σ) (h : i ≠ j) :
    nd (nodes.set i e) j = nd nodes j := by
  simp [nd, List.getD_eq_getElem?_getD, List.getElem?_set_ne h]

lemma updateBranch_nodes_length [Inhabited σ] (cfg : DecoderConfig)
    (S : BeamScorer σ) (inp : List ℚ) (st : List (BeamEntry σ) × List ℕ)
    (i : ℕ) : (updateBranch cfg S inp st i).1.length = st.1.length := by
  unfold updateBranch
  simp [List.length_set]

lemma updateBranch_nd_ne [Inhabited σ] (cfg : DecoderConfig)
    (S : BeamScorer σ) (inp : List ℚ) (st : List (BeamEntry σ) × List ℕ)
    (i j : ℕ) (h : i ≠ j) :
    nd (updateBranch cfg S inp st i).1 j = nd st.1 j := by
  unfold updateBranch
  exact nd_set_ne st.1 i j _ h

lemma foldl_updateBranch_nd_not_mem [Inhabited σ] (cfg : DecoderConfig)
    (S : BeamScorer σ) (inp : List ℚ) (l : List ℕ)
    (st : List (BeamEntry σ) × List ℕ) (i : ℕ) (hi : i ∉ l) :
    nd (l.foldl (updateBranch cfg S inp) st).1 i = nd st.1 i := by
  induction l generalizing st with
  | nil => rfl
  | cons j t ih =>
    rw [List.foldl_cons, ih _ (fun h => hi (List.mem_cons_of_mem j h))]
    exact updateBranch_nd_ne cfg S inp st j i
      (fun h => hi (h ▸ List.mem_cons_self j t))

lemma foldl_updateBranch_nodes_length [Inhabited σ] (cfg : DecoderConfig)
    (S : BeamScorer σ) (inp : List ℚ) (l : List ℕ)
    (st : List (BeamEntry σ) × List ℕ) :
    (l.foldl (updateBranch cfg S inp) st).1.length = st.1.length := by
  induction l generalizing st with
  | nil => rfl
  | cons j t ih =>
    rw [List.foldl_cons, ih, updateBranch_nodes_length]

lemma updateBranch_nd_self [Inhabited σ] (cfg : DecoderConfig)
    (S : BeamScorer σ) (inp : List ℚ) (st : List (BeamEntry σ) × List ℕ)
    (i : ℕ) (h : i < st.1.length) :
    nd (updateBranch cfg S inp st i).1 i =
      { nd st.1 i with
        newp :=
          ⟨LogSumExp ((nd st.1 i).oldp.total
              * inputAt inp ((cfg.numClasses : ℤ) - 1))
            (match (nd st.1 i).parent with
             | none => (nd st.1 i).newp.label
             | some pi =>
               (if (nd st.1 pi).Active then
                  LogSumExp (nd st.1 i).newp.label
                    (S.stateExpansionScore (nd st.1 i).state
                      (if (nd st.1 i).label = (nd st.1 pi).label then
                        (nd st.1 pi).oldp.blank
                      else (nd st.1 pi).oldp.total))
                else (nd st.1 i).newp.label) * inputAt inp (nd st.1 i).label),
            (nd st.1 i).oldp.total * inputAt inp ((cfg.numClasses : ℤ) - 1),
            match (nd st.1 i).parent with
            | none => (nd st.1 i).newp.label
            | some pi =>
              (if (nd st.1 pi).Active then
                 LogSumExp (nd st.1 i).newp.label
                   (S.stateExpansionScore (nd st.1 i).state
                     (if (nd st.1 i).label = (nd st.1 pi).label then
                       (nd st.1 pi).oldp.blank
                     else (nd st.1 pi).oldp.total))
               else (nd st.1 i).newp.label) * inputAt inp (nd st.1 i).label⟩ } := by
  unfold updateBranch
  rw [nd_set_self _ _ _ h]

/-- C1: in `Step`'s branch-update loop, consider the entry at position
`|l₁|` of the extracted beam `l₁ ++ i :: l₂` (with `i` not processed again
later).  Writing `mid` for the state after the earlier entries were
processed: if `i` is the root, its `new.label` is left unchanged through the
whole loop; if `i` has a parent that is active at `i`'s processing time, its
`new.label` becomes the log-sum of its current value and the scorer's
expansion score — whose `previous` probability is `parent.old.blank` when
`i`'s label repeats the parent's label and `parent.old.total` otherwise —
with the timestep's log-probability of `i`'s own label added afterwards
(linear domain: multiplied); with an inactive parent only the input
log-probability is added. -/
theorem step_label_recurrence [Inhabited σ] (cfg : DecoderConfig)
    (S : BeamScorer σ) (inp : List ℚ) (nodes : List (BeamEntry σ))
    (lv : List ℕ) (l₁ l₂ : List ℕ) (i : ℕ) (hi : i ∉ l₂)
    (hlen : i < nodes.length) :
    ((nd (l₁.foldl (updateBranch cfg S inp) (nodes, lv)).1 i).parent = none →
      (nd ((l₁ ++ i :: l₂).foldl (updateBranch cfg S inp) (nodes, lv)).1
          i).newp.label
        = (nd (l₁.foldl (updateBranch cfg S inp) (nodes, lv)).1 i).newp.label)
    ∧ (∀ pi,
        (nd (l₁.foldl (updateBranch cfg S inp) (nodes, lv)).1 i).parent
          = some pi →
        (nd ((l₁ ++ i :: l₂).foldl (updateBranch cfg S inp) (nodes, lv)).1
            i).newp.label
          = (if (nd (l₁.foldl (updateBranch cfg S inp) (nodes, lv)).1
                  pi).Active then
               LogSumExp
                 (nd (l₁.foldl (updateBranch cfg S inp) (nodes, lv)).1
                   i).newp.label
                 (S.stateExpansionScore
                   (nd (l₁.foldl (updateBranch cfg S inp) (nodes, lv)).1
                     i).state
                   (if (nd (l₁.foldl (updateBranch cfg S inp) (nodes, lv)).1
                          i).label
                       = (nd (l₁.foldl (updateBranch cfg S inp) (nodes, lv)).1
                           pi).label then
                     (nd (l₁.foldl (updateBranch cfg S inp) (nodes, lv)).1
                       pi).oldp.blank
                    else
                     (nd (l₁.foldl (updateBranch cfg S inp) (nodes, lv)).1
                       pi).oldp.total))
             else
               (nd (l₁.foldl (updateBranch cfg S inp) (nodes, lv)).1
                 i).newp.label)
            * inputAt inp
                (nd (l₁.foldl (updateBranch cfg S inp) (nodes, lv)).1
                  i).label) := by
  have hmidlen : i < (l₁.foldl (updateBranch cfg S inp) (nodes, lv)).1.length := by
    rw [foldl_updateBranch_nodes_length]
    exact hlen
  have hsplit :
      ((l₁ ++ i :: l₂).foldl (updateBranch cfg S inp) (nodes, lv))
        = l₂.foldl (updateBranch cfg S inp)
            (updateBranch cfg S inp
              (l₁.foldl (updateBranch cfg S inp) (nodes, lv)) i) := by
    rw [List.foldl_append, List.foldl_cons]
  have hmain :
      nd ((l₁ ++ i :: l₂).foldl (updateBranch cfg S inp) (nodes, lv)).1 i
        = nd (updateBranch cfg S inp
            (l₁.foldl (updateBranch cfg S inp) (nodes, lv)) i).1 i := by
    rw [hsplit]
    exact foldl_updateBranch_nd_not_mem cfg S inp l₂ _ i hi
  constructor
  · intro hroot
    rw [hmain, updateBranch_nd_self cfg S inp _ i hmidlen]
    simp [hroot]
  · intro pi hpi
    rw [hmain, updateBranch_nd_self cfg S inp _ i hmidlen]
    simp [hpi]

/-- Witness for `step_label_recurrence`: the root entry of the freshly reset
decoder keeps its `new.label` through the branch-update loop. -/
theorem step_label_recurrence_witness :
    (0 ∉ ([] : List ℕ))
    ∧ 0 < (Reset (σ := Unit) noopScorer).nodes.length
    ∧ (nd (List.foldl (updateBranch ⟨2, 2⟩ noopScorer [1, 1])
          ((Reset (σ := Unit) noopScorer).nodes, [])
          (([] : List ℕ) ++ 0 :: [])).1 0).newp.label
      = (nd (List.foldl (updateBranch ⟨2, 2⟩ noopScorer [1, 1])
          ((Reset (σ := Unit) noopScorer).nodes, [])
          ([] : List ℕ)).1 0).newp.label :=
  ⟨List.not_mem_nil 0, Nat.zero_lt_one,
   (step_label_recurrence ⟨2, 2⟩ noopScorer [1, 1]
      (Reset (σ := Unit) noopScorer).nodes [] [] [] 0 (List.not_mem_nil 0)
      Nat.zero_lt_one).1 rfl⟩

/-- Beam order: entry `a` ranks no lower than entry `b` by `newp.total`. -/
def BeamGE [Inhabited σ] (nodes : List (BeamEntry σ)) (a b : ℕ) : Prop :=
  (nd nodes b).newp.total ≤ (nd nodes a).newp.total

lemma mem_beamInsert [Inhabited σ] (nodes : List (BeamEntry σ))
    (l : List ℕ) (i x : ℕ) :
    x ∈ beamInsert nodes l i ↔ x = i ∨ x ∈ l := by
  induction l with
  | nil => simp [beamInsert]
  | cons j t ih =>
    by_cases h : (nd nodes i).newp.total ≤ (nd nodes j).newp.total
    · simp only [beamInsert, if_pos h, List.mem_cons, ih]
      try tauto
    · simp only [beamInsert, if_neg h, List.mem_cons]
      try tauto

lemma pairwise_beamInsert [Inhabited σ] (nodes : List (BeamEntry σ))
    (l : List ℕ) (i : ℕ) (hl : l.Pairwise (BeamGE nodes)) :
    (beamInsert nodes l i).Pairwise (BeamGE nodes) := by
  induction l with
  | nil => simp [beamInsert]
  | cons j t ih =>
    rcases List.pairwise_cons.mp hl with ⟨hj, ht⟩
    by_cases h : (nd nodes i).newp.total ≤ (nd nodes j).newp.total
    · rw [beamInsert, if_pos h]
      refine List.pairwise_cons.mpr ⟨?_, ih ht⟩
      intro x hx
      rcases (mem_beamInsert nodes t i x).mp hx with rfl | hxt
      · exact h
      · exact hj x hxt
    · rw [beamInsert, if_neg h]
      refine List.pairwise_cons.mpr ⟨?_, hl⟩
      intro x hx
      rcases List.mem_cons.mp hx with rfl | hxt
      · exact (not_le.mp h).le
      · exact le_trans (hj x hxt) (not_le.mp h).le

lemma pairwise_beamPush [Inhabited σ] (nodes : List (BeamEntry σ))
    (width : ℕ) (l : List ℕ) (i : ℕ) (hl : l.Pairwise (BeamGE nodes)) :
    (beamPush nodes width l i).Pairwise (BeamGE nodes) := by
  unfold beamPush
  by_cases h : width < (beamInsert nodes l i).length
  · rw [if_pos h]
    exact List.Pairwise.sublist (List.dropLast_sublist _)
      (pairwise_beamInsert nodes l i hl)
  · rw [if_neg h]
    exact pairwise_beamInsert nodes l i hl

lemma pairwise_foldl_beamPush [Inhabited σ] (nodes : List (BeamEntry σ))
    (width : ℕ) (xs : List ℕ) (acc : List ℕ)
    (hacc : acc.Pairwise (BeamGE nodes)) :
    (xs.foldl (beamPush nodes width) acc).Pairwise (BeamGE nodes) := by
  induction xs generalizing acc with
  | nil => exact hacc
  | cons x t ih => exact ih _ (pairwise_beamPush nodes width acc x hacc)

lemma length_beamInsert [Inhabited σ] (nodes : List (BeamEntry σ))
    (l : List ℕ) (i : ℕ) :
    (beamInsert nodes l i).length = l.length + 1 := by
  induction l with
  | nil => rfl
  | cons j t ih =>
    by_cases h : (nd nodes i).newp.total ≤ (nd nodes j).newp.total
    · rw [beamInsert, if_pos h]; simp [ih]
    · rw [beamInsert, if_neg h]; rfl

lemma length_beamPush [Inhabited σ] (nodes : List (BeamEntry σ))
    (width : ℕ) (l : List ℕ) (i : ℕ) (hl : l.length ≤ width) :
    (beamPush nodes width l i).length = min (l.length + 1) width := by
  unfold beamPush
  by_cases h : width < (beamInsert nodes l i).length
  · rw [if_pos h, List.length_dropLast, length_beamInsert]
    rw [length_beamInsert] at h
    omega
  · rw [if_neg h, length_beamInsert]
    rw [length_beamInsert] at h
    omega

lemma length_foldl_beamPush [Inhabited σ] (nodes : List (BeamEntry σ))
    (width : ℕ) (xs : List ℕ) (acc : List ℕ) (hacc : acc.length ≤ width) :
    (xs.foldl (beamPush nodes width) acc).length
      = min (acc.length + xs.length) width := by
  induction xs generalizing acc with
  | nil =>
    simp only [List.foldl_nil, List.length_nil, Nat.add_zero]
    omega
  | cons x t ih =>
    have h1 : (beamPush nodes width acc x).length = min (acc.length + 1) width :=
      length_beamPush nodes width acc x hacc
    rw [List.foldl_cons, ih _ (by rw [h1]; omega), h1, List.length_cons]
    omega

/-- C7: `TopPaths(n, merge_repeated)` fails with a precondition error exactly
when `n` exceeds `beam_width` or the current beam occupancy; otherwise it
returns exactly `n` (label-sequence, log-probability) pairs in descending
order of final `new.total`.  The embedding's `TopPaths` is a pure function of
the state: the beam and tree are not mutated by construction. -/
theorem topPaths_spec [Inhabited σ] (cfg : DecoderConfig)
    (st : DecoderState σ) (n : ℕ) (mergeRepeated : Bool) :
    (cfg.beamWidth < n ∨ st.leaves.length < n →
      TopPaths cfg st n mergeRepeated = none)
    ∧ (n ≤ cfg.beamWidth → n ≤ st.leaves.length →
        ∃ tp, TopPaths cfg st n mergeRepeated = some tp
          ∧ tp.length = n
          ∧ tp.Pairwise (fun p q => q.2 ≤ p.2)) := by
  constructor
  · intro h
    rw [TopPaths, if_pos h]
  · intro h1 h2
    rw [TopPaths, if_neg (by omega)]
    refine ⟨_, rfl, ?_, ?_⟩
    · rw [List.length_map, List.length_take,
        length_foldl_beamPush st.nodes n st.leaves [] (by simp)]
      simp only [List.length_nil, Nat.zero_add]
      omega
    · rw [List.pairwise_map]
      refine List.Pairwise.sublist (List.take_sublist _ _) ?_
      exact pairwise_foldl_beamPush st.nodes n st.leaves [] (by simp)

unseal Rat.add Rat.mul Rat.inv Rat.sub in
/-- Witness for `topPaths_spec`: `TopPaths(2, ...)` with `beam_width = 1`
fails its precondition, and `TopPaths(1, ...)` on the freshly reset
single-member beam returns exactly one pair. -/
theorem topPaths_spec_witness :
    TopPaths ⟨2, 1⟩ (Reset (σ := Unit) noopScorer) 2 false = none
    ∧ ∃ tp, TopPaths ⟨2, 2⟩ (Reset (σ := Unit) noopScorer) 1 false = some tp
        ∧ tp.length = 1 ∧ tp.Pairwise (fun p q => q.2 ≤ p.2) :=
  ⟨(topPaths_spec ⟨2, 1⟩ (Reset noopScorer) 2 false).1 (Or.inl (by decide)),
   (topPaths_spec ⟨2, 2⟩ (Reset noopScorer) 1 false).2 (by decide) (by decide)⟩

lemma peekBottom_mem : ∀ (l : List ℕ), l ≠ [] → peekBottom l ∈ l := by
  intro l
  induction l with
  | nil => intro h; exact absurd rfl h
  | cons a t ih =>
    intro _
    cases t with
    | nil => exact List.mem_singleton.mpr rfl
    | cons b u =>
      have : peekBottom (a :: b :: u) = peekBottom (b :: u) := by
        simp [peekBottom, List.getLastD_cons]
      rw [this]
      exact List.mem_cons_of_mem a (ih (by simp))

lemma mem_dropLast_beamInsert [Inhabited σ] (nodes : List (BeamEntry σ))
    (i : ℕ) : ∀ (l : List ℕ), l ≠ [] →
    (nd nodes (peekBottom l)).newp.total < (nd nodes i).newp.total →
    i ∈ (beamInsert nodes l i).dropLast := by
  intro l
  induction l with
  | nil => intro h; exact absurd rfl h
  | cons j t ih =>
    intro _ hbot
    cases t with
    | nil =>
      have hj : ¬ (nd nodes i).newp.total ≤ (nd nodes j).newp.total := by
        simpa [peekBottom] using not_le.mpr hbot
      simp [beamInsert, if_neg hj]
    | cons b u =>
      by_cases h : (nd nodes i).newp.total ≤ (nd nodes j).newp.total
      · rw [beamInsert, if_pos h]
        have hne : beamInsert nodes (b :: u) i ≠ [] := by
          intro he
          have := length_beamInsert nodes (b :: u) i
          rw [he] at this
          simp at this
        have hbot' : (nd nodes (peekBottom (b :: u))).newp.total
            < (nd nodes i).newp.total := by
          have : peekBottom (j :: b :: u) = peekBottom (b :: u) := by
            simp [peekBottom, List.getLastD_cons]
          rwa [this] at hbot
        have hmem := ih (by simp) hbot'
        rcases List.exists_cons_of_ne_nil hne with ⟨y, ys, hy⟩
        rw [hy]
        rw [hy] at hmem
        exact List.mem_cons_of_mem j hmem
      · rw [beamInsert, if_neg h, List.dropLast_cons₂]
        exact List.mem_cons_self i _

lemma mem_beamPush_of_candidate [Inhabited σ] (nodes : List (BeamEntry σ))
    (width : ℕ) (l : List ℕ) (i : ℕ)
    (h : l.length < width ∨ (l ≠ [] ∧
      (nd nodes (peekBottom l)).newp.total < (nd nodes i).newp.total)) :
    i ∈ beamPush nodes width l i := by
  unfold beamPush
  by_cases hd : width < (beamInsert nodes l i).length
  · rw [if_pos hd]
    rw [length_beamInsert] at hd
    rcases h with hlt | ⟨hne, hbot⟩
    · omega
    · exact mem_dropLast_beamInsert nodes i l hne hbot
  · rw [if_neg hd]
    exact (mem_beamInsert nodes l i i).mpr (Or.inl rfl)

lemma nd_populateChildren_self [Inhabited σ] (nodes : List (BeamEntry σ))
    (b L : ℕ) (hb : b < nodes.length) :
    nd (populateChildren nodes b L) b
      = { nd nodes b with
          children := (List.range L).map (fun l => nodes.length + l) } := by
  unfold populateChildren
  exact nd_set_self _ b _ (by simp [List.length_append]; omega)

/-- C4: `Step`'s expansion phase.  (a) A branch whose `oldp` fails the
admission test is skipped entirely: the state is unchanged, so no children
are instantiated or examined.  (b) When the test passes, the branch's
children are instantiated if absent (non-empty whenever the label space has a
non-blank label) and the per-child growth runs over exactly those children.
(c) An active child is left untouched.  (d) An inactive child is pushed into
the beam iff its freshly computed pair (with `blank` fixed at the sentinel
and `total = label`) passes the same admission test — evaluated against the
live beam — and otherwise both of its probability pairs are reset and the
beam is unchanged. -/
theorem step_expansion_phase [Inhabited σ] (cfg : DecoderConfig)
    (S : BeamScorer σ) (inp : List ℚ) (st : List (BeamEntry σ) × List ℕ)
    (bIdx ci : ℕ) :
    (isCandidate cfg st.1 st.2 (nd st.1 bIdx).oldp = false →
      growBranch cfg S inp st bIdx = st)
    ∧ (isCandidate cfg st.1 st.2 (nd st.1 bIdx).oldp = true →
        growBranch cfg S inp st bIdx
          = (nd (if (nd st.1 bIdx).children.isEmpty then
                   populateChildren st.1 bIdx (cfg.numClasses - 1)
                 else st.1) bIdx).children.foldl (growChild cfg S inp bIdx)
              ((if (nd st.1 bIdx).children.isEmpty then
                  populateChildren st.1 bIdx (cfg.numClasses - 1)
                else st.1), st.2))
    ∧ (isCandidate cfg st.1 st.2 (nd st.1 bIdx).oldp = true →
        2 ≤ cfg.numClasses → bIdx < st.1.length →
        (nd (if (nd st.1 bIdx).children.isEmpty then
               populateChildren st.1 bIdx (cfg.numClasses - 1)
             else st.1) bIdx).children ≠ [])
    ∧ ((nd st.1 ci).Active = true → growChild cfg S inp bIdx st ci = st)
    ∧ ((nd st.1 ci).Active = false → ci < st.1.length →
        let cstate := S.expandState (nd st.1 bIdx).state (nd st.1 bIdx).label
          (nd st.1 ci).label
        let lab := inputAt inp (nd st.1 ci).label
          * S.stateExpansionScore cstate
              (if (nd st.1 ci).label = (nd st.1 bIdx).label then
                (nd st.1 bIdx).oldp.blank
              else (nd st.1 bIdx).oldp.total)
        let nodes1 := st.1.set ci
          { nd st.1 ci with state := cstate, newp := ⟨lab, kLogZero, lab⟩ }
        (isCandidate cfg nodes1 st.2 ⟨lab, kLogZero, lab⟩ = true →
          st.2 ≠ [] →
          ci ∈ (growChild cfg S inp bIdx st ci).2
          ∧ (ci ∉ st.2 →
              (nd (growChild cfg S inp bIdx st ci).1 ci).newp
                = ⟨lab, kLogZero, lab⟩))
        ∧ (isCandidate cfg nodes1 st.2 ⟨lab, kLogZero, lab⟩ = false →
            (growChild cfg S inp bIdx st ci).2 = st.2
            ∧ (nd (growChild cfg S inp bIdx st ci).1 ci).oldp
                = BeamProbability.reset
            ∧ (nd (growChild cfg S inp bIdx st ci).1 ci).newp
                = BeamProbability.reset)) := by
  refine ⟨?_, ?_, ?_, ?_, ?_⟩
  · intro h
    unfold growBranch
    rw [if_neg (by simp [h])]
  · intro h
    unfold growBranch
    rw [if_pos h]
  · intro h h2 hb
    by_cases hc : (nd st.1 bIdx).children.isEmpty
    · rw [if_pos hc, nd_populateChildren_self st.1 bIdx _ hb]
      simp only [ne_eq, List.map_eq_nil_iff, List.range_eq_nil]
      omega
    · rw [if_neg hc]
      simpa [List.isEmpty_iff] using hc
  · intro h
    unfold growChild
    rw [if_pos h]
  · intro h hci
    intro cstate lab nodes1
    have hgc : growChild cfg S inp bIdx st ci
        = if isCandidate cfg nodes1 st.2 ⟨lab, kLogZero, lab⟩ then
            (if (beamPush nodes1 cfg.beamWidth st.2 ci).length = cfg.beamWidth then (nodes1.set (peekBottom st.2) { nd nodes1 (peekBottom st.2) with newp := BeamProbability.reset }, beamPush nodes1 cfg.beamWidth st.2 ci) else (nodes1, beamPush nodes1 cfg.beamWidth st.2 ci))
          else
            (st.1.set ci { nd st.1 ci with state := cstate, oldp := BeamProbability.reset, newp := BeamProbability.reset },
             st.2) := by
      unfold growChild
      rw [if_neg (by simp [h])]
    constructor
    · intro hcand hne
      rw [hgc, if_pos hcand]
      have hbp : ci ∈ beamPush nodes1 cfg.beamWidth st.2 ci := by
        refine mem_beamPush_of_candidate nodes1 cfg.beamWidth st.2 ci ?_
        have h2 := hcand
        unfold isCandidate at h2
        simp only [Bool.and_eq_true, Bool.or_eq_true, decide_eq_true_eq] at h2
        rcases h2.2 with hlt | hbot
        · exact Or.inl hlt
        · refine Or.inr ⟨hne, ?_⟩
          have hset := nd_set_self st.1 ci { nd st.1 ci with state := cstate, newp := (⟨lab, kLogZero, lab⟩ : BeamProbability) } hci
          have htot : (nd nodes1 ci).newp.total = lab := by rw [hset]
          rwa [htot]
      have hset := nd_set_self st.1 ci { nd st.1 ci with state := cstate, newp := (⟨lab, kLogZero, lab⟩ : BeamProbability) } hci
      by_cases hw : (beamPush nodes1 cfg.beamWidth st.2 ci).length
          = cfg.beamWidth
      · rw [if_pos hw]
        refine ⟨hbp, ?_⟩
        intro hnotin
        have hbot_ne : peekBottom st.2 ≠ ci := by
          intro he
          exact hnotin (he ▸ peekBottom_mem st.2 hne)
        exact congrArg (fun e => e.newp)
          ((nd_set_ne nodes1 (peekBottom st.2) ci _ hbot_ne).trans hset)
      · rw [if_neg hw]
        exact ⟨hbp, fun _ => congrArg (fun e => e.newp) hset⟩
    · intro hcand
      rw [hgc, if_neg (by simp [hcand])]
      have hset := nd_set_self st.1 ci { nd st.1 ci with state := cstate, oldp := BeamProbability.reset, newp := BeamProbability.reset } hci
      exact ⟨rfl, congrArg (fun e => e.oldp) hset,
        congrArg (fun e => e.newp) hset⟩

/-- Witness for `step_expansion_phase`: the freshly reset root with a zero
`oldp.total` fails the admission test, so its branch-growth step leaves the
state unchanged. -/
theorem step_expansion_phase_witness :
    isCandidate ⟨2, 2⟩ (Reset (σ := Unit) noopScorer).nodes [0]
        (nd (Reset (σ := Unit) noopScorer).nodes 0).oldp = false
    ∧ growBranch ⟨2, 2⟩ noopScorer [1, 1]
        ((Reset (σ := Unit) noopScorer).nodes, [0]) 0
      = ((Reset (σ := Unit) noopScorer).nodes, [0]) :=
  ⟨by decide,
   (step_expansion_phase ⟨2, 2⟩ noopScorer [1, 1]
      ((Reset (σ := Unit) noopScorer).nodes, [0]) 0 0).1 (by decide)⟩

/-- The per-node blank recurrence (amended C2): when a node is active after a
`Step` with blank input coefficient `z`, its `new.blank` either equals
`old.total * z` (log domain: `old.total` plus the blank log-probability) —
the case of entries carried over from the prior beam — or sits at the
negative-infinity sentinel — the case of nodes (re)activated through child
expansion this timestep; in both cases `new.total` is the log-sum of
`new.blank` and `new.label`. -/
def goodOne (z : ℚ) (e : BeamEntry σ) : Prop :=
  e.Active = true →
    (e.newp.blank = e.oldp.total * z ∨ e.newp.blank = kLogZero)
    ∧ e.newp.total = LogSumExp e.newp.blank e.newp.label

/-- The amended C2 invariant over a whole arena. -/
def blankRecurrenceOK [Inhabited σ] (z : ℚ)
    (nodes : List (BeamEntry σ)) : Prop :=
  ∀ j, goodOne z (nd nodes j)

lemma active_default_false [Inhabited σ] :
    (default : BeamEntry σ).Active = false := rfl

lemma goodOne_default [Inhabited σ] (z : ℚ) :
    goodOne z (default : BeamEntry σ) := by
  intro ha
  rw [active_default_false] at ha
  exact absurd ha (by simp)

lemma nd_ge_length [Inhabited σ] (nodes : List (BeamEntry σ)) (j : ℕ)
    (h : nodes.length ≤ j) : nd nodes j = default := by
  simp [nd, List.getD_eq_getElem?_getD, List.getElem?_eq_none h]

lemma good_set [Inhabited σ] (z : ℚ) (ns : List (BeamEntry σ)) (i : ℕ)
    (e : BeamEntry σ) (hOK : blankRecurrenceOK z ns) (he : goodOne z e) :
    blankRecurrenceOK z (ns.set i e) := by
  intro j
  by_cases hij : i = j
  · subst hij
    by_cases hlen : i < ns.length
    · rw [nd_set_self ns i e hlen]
      exact he
    · rw [List.set_eq_of_length_le (le_of_not_lt hlen)]
      exact hOK i
  · rw [nd_set_ne ns i j e hij]
    exact hOK j

lemma good_append [Inhabited σ] (z : ℚ) (ns ks : List (BeamEntry σ))
    (hOK : blankRecurrenceOK z ns) (hks : ∀ e ∈ ks, goodOne z e) :
    blankRecurrenceOK z (ns ++ ks) := by
  intro j
  by_cases hj : j < ns.length
  · have h1 : nd (ns ++ ks) j = nd ns j := by
      unfold nd
      exact List.getD_append ns ks default j hj
    rw [h1]
    exact hOK j
  · by_cases hk : j - ns.length < ks.length
    · have h1 : nd (ns ++ ks) j = ks.getD (j - ns.length) default := by
        unfold nd
        exact List.getD_append_right ns ks default j (le_of_not_lt hj)
      rw [h1, List.getD_eq_getElem ks default hk]
      exact hks _ (List.getElem_mem hk)
    · have h1 : nd (ns ++ ks) j = default := by
        refine nd_ge_length _ j ?_
        rw [List.length_append]
        omega
      rw [h1]
      exact goodOne_default z

lemma good_populate [Inhabited σ] (z : ℚ) (ns : List (BeamEntry σ))
    (b L : ℕ) (hOK : blankRecurrenceOK z ns) :
    blankRecurrenceOK z (populateChildren ns b L) := by
  unfold populateChildren
  refine good_set z _ b _ (good_append z ns _ hOK ?_) ?_
  · intro e he
    simp only [List.mem_map, List.mem_range] at he
    obtain ⟨m, _, rfl⟩ := he
    intro ha
    simp [BeamEntry.Active, BeamProbability.reset, kLogZero] at ha
  · exact hOK b

lemma updateBranch_fold_good [Inhabited σ] (cfg : DecoderConfig)
    (S : BeamScorer σ) (inp : List ℚ) :
    ∀ (l : List ℕ) (stp : List (BeamEntry σ) × List ℕ),
      (∀ j, (nd stp.1 j).Active = true →
        j ∈ l ∨ goodOne (inputAt inp ((cfg.numClasses : ℤ) - 1)) (nd stp.1 j)) →
      blankRecurrenceOK (inputAt inp ((cfg.numClasses : ℤ) - 1))
        (l.foldl (updateBranch cfg S inp) stp).1 := by
  intro l
  induction l with
  | nil =>
    intro stp h j ha
    rcases h j ha with hmem | hg
    · exact absurd hmem (List.not_mem_nil j)
    · exact hg ha
  | cons i t ih =>
    intro stp h
    rw [List.foldl_cons]
    refine ih (updateBranch cfg S inp stp i) ?_
    intro j ha
    by_cases hij : i = j
    · subst hij
      by_cases hlen : i < stp.1.length
      · right
        rw [updateBranch_nd_self cfg S inp stp i hlen]
        intro _
        exact ⟨Or.inl rfl, rfl⟩
      · have hnb : (updateBranch cfg S inp stp i).1 = stp.1 := by
          unfold updateBranch
          exact List.set_eq_of_length_le (le_of_not_lt hlen)
        rw [hnb] at ha ⊢
        rw [nd_ge_length stp.1 i (le_of_not_lt hlen)] at ha
        rw [active_default_false] at ha
        exact absurd ha (by simp)
    · rw [updateBranch_nd_ne cfg S inp stp i j hij] at ha ⊢
      rcases h j ha with hmem | hg
      · rcases List.mem_cons.mp hmem with rfl | hmem'
        · exact absurd rfl hij
        · exact Or.inl hmem'
      · exact Or.inr hg

set_option maxHeartbeats 1600000 in
lemma growChild_good [Inhabited σ] (cfg : DecoderConfig) (S : BeamScorer σ)
    (inp : List ℚ) (bIdx ci : ℕ) (stp : List (BeamEntry σ) × List ℕ)
    (z : ℚ) (hOK : blankRecurrenceOK z stp.1) :
    blankRecurrenceOK z (growChild cfg S inp bIdx stp ci).1 := by
  by_cases hA : (nd stp.1 ci).Active = true
  · unfold growChild
    rw [if_pos hA]
    exact hOK
  · unfold growChild
    rw [if_neg hA]
    simp only []
    repeat' split
    all_goals
      first
      | exact good_set z _ _ _
          (good_set z _ _ _ hOK (fun _ => ⟨Or.inr rfl, (zero_add _).symm⟩))
          (fun hb => absurd hb
            (by simp [BeamEntry.Active, BeamProbability.reset, kLogZero]))
      | exact good_set z _ _ _ hOK
          (fun _ => ⟨Or.inr rfl, (zero_add _).symm⟩)

lemma growChild_fold_good [Inhabited σ] (cfg : DecoderConfig)
    (S : BeamScorer σ) (inp : List ℚ) (bIdx : ℕ) (z : ℚ) :
    ∀ (cs : List ℕ) (stp : List (BeamEntry σ) × List ℕ),
      blankRecurrenceOK z stp.1 →
      blankRecurrenceOK z (cs.foldl (growChild cfg S inp bIdx) stp).1 := by
  intro cs
  induction cs with
  | nil => intro stp h; exact h
  | cons c t ih =>
    intro stp h
    rw [List.foldl_cons]
    exact ih _ (growChild_good cfg S inp bIdx c _ z h)

lemma growBranch_good [Inhabited σ] (cfg : DecoderConfig) (S : BeamScorer σ)
    (inp : List ℚ) (bIdx : ℕ) (stp : List (BeamEntry σ) × List ℕ) (z : ℚ)
    (hOK : blankRecurrenceOK z stp.1) :
    blankRecurrenceOK z (growBranch cfg S inp stp bIdx).1 := by
  unfold growBranch
  by_cases hc : isCandidate cfg stp.1 stp.2 (nd stp.1 bIdx).oldp = true
  · rw [if_pos hc]
    refine growChild_fold_good cfg S inp bIdx z _ _ ?_
    by_cases he : (nd stp.1 bIdx).children.isEmpty
    · rw [if_pos he]
      exact good_populate z stp.1 bIdx _ hOK
    · rw [if_neg he]
      exact hOK
  · rw [if_neg hc]
    exact hOK

lemma growBranch_fold_good [Inhabited σ] (cfg : DecoderConfig)
    (S : BeamScorer σ) (inp : List ℚ) (z : ℚ) :
    ∀ (l : List ℕ) (stp : List (BeamEntry σ) × List ℕ),
      blankRecurrenceOK z stp.1 →
      blankRecurrenceOK z (l.foldl (growBranch cfg S inp) stp).1 := by
  intro l
  induction l with
  | nil => intro stp h; exact h
  | cons b t ih =>
    intro stp h
    rw [List.foldl_cons]
    exact ih _ (growBranch_good cfg S inp b _ z h)

lemma shiftOld_newp [Inhabited σ] :
    ∀ (branches : List ℕ) (nodes : List (BeamEntry σ)) (j : ℕ),
      (nd (shiftOld nodes branches) j).newp = (nd nodes j).newp := by
  intro branches
  induction branches with
  | nil => intro nodes j; rfl
  | cons i t ih =>
    intro nodes j
    unfold shiftOld
    rw [List.foldl_cons]
    have h1 : (nd (shiftOld (nodes.set i { nd nodes i with oldp := (nd nodes i).newp }) t) j).newp
        = (nd (nodes.set i { nd nodes i with oldp := (nd nodes i).newp }) j).newp := ih _ j
    unfold shiftOld at h1
    rw [h1]
    by_cases hij : i = j
    · subst hij
      by_cases hlen : i < nodes.length
      · rw [nd_set_self nodes i _ hlen]
      · rw [List.set_eq_of_length_le (le_of_not_lt hlen)]
    · rw [nd_set_ne nodes i j _ hij]

/-- C2 (amended): after any successful `Step` from a state in which every
active node is in the beam, every active node of the result satisfies:
`new.total = logsumexp(new.blank, new.label)`, and `new.blank` equals
`old.total` plus the timestep's blank log-probability (linear: `old.total *
z`) **or** sits at the negative-infinity sentinel (the case of nodes
(re)activated through child expansion this timestep; for freshly created
children the two cases coincide since their `old.total` is the sentinel). -/
theorem step_blank_recurrence [Inhabited σ] (cfg : DecoderConfig)
    (S : BeamScorer σ) (st : DecoderState σ) (v : List ℚ)
    (st' : DecoderState σ)
    (H1 : ∀ j, j < st.nodes.length → (nd st.nodes j).Active = true →
      j ∈ st.leaves)
    (hstep : Step cfg S st v = some st') :
    blankRecurrenceOK (inputAt (normalize v) ((cfg.numClasses : ℤ) - 1))
      st'.nodes := by
  unfold Step at hstep
  by_cases hv : v.length ≠ cfg.numClasses
  · rw [if_pos hv] at hstep
    exact absurd hstep (by simp)
  · rw [if_neg hv] at hstep
    have hst := Option.some.inj hstep
    have hp2 : blankRecurrenceOK (inputAt (normalize v) ((cfg.numClasses : ℤ) - 1))
        (st.leaves.foldl (updateBranch cfg S (normalize v))
          (shiftOld st.nodes st.leaves, [])).1 := by
      refine updateBranch_fold_good cfg S (normalize v) st.leaves
        (shiftOld st.nodes st.leaves, []) ?_
      intro j ha
      have hnp := shiftOld_newp st.leaves st.nodes j
      have ha' : (nd st.nodes j).Active = true := by
        unfold BeamEntry.Active at ha ⊢
        rw [hnp] at ha
        exact ha
      by_cases hj : j < st.nodes.length
      · exact Or.inl (H1 j hj ha')
      · rw [nd_ge_length st.nodes j (le_of_not_lt hj),
          active_default_false] at ha'
        exact absurd ha' (by simp)
    have hgrow := growBranch_fold_good cfg S (normalize v)
      (inputAt (normalize v) ((cfg.numClasses : ℤ) - 1)) st.leaves
      (st.leaves.foldl (updateBranch cfg S (normalize v))
        (shiftOld st.nodes st.leaves, [])) hp2
    rw [← hst]
    exact hgrow

set_option maxHeartbeats 2000000 in
unseal Rat.add Rat.mul Rat.inv Rat.sub in
/-- Witness for `step_blank_recurrence` at a concrete `Step` from the reset
state. -/
theorem step_blank_recurrence_witness :
    blankRecurrenceOK
      (inputAt (normalize [1/2, 1/2]) (((⟨2, 2⟩ : DecoderConfig).numClasses : ℤ) - 1))
      (((Step ⟨2, 2⟩ noopScorer (Reset noopScorer) [1/2, 1/2]).getD
        (Reset noopScorer)).nodes) :=
  step_blank_recurrence ⟨2, 2⟩ noopScorer (Reset noopScorer) [1/2, 1/2]
    ((Step ⟨2, 2⟩ noopScorer (Reset noopScorer) [1/2, 1/2]).getD
      (Reset noopScorer))
    (by decide)
    (by decide)

unseal Rat.add Rat.mul Rat.inv Rat.sub in
/-- C2 (counterexample): with `num_classes = 3`, `beam_width = 2`, no-op
scorer, after the four `Step`s on
`[[1,4,1], [1,2,4], [1,4,1], [4,1,1]]` node `3` — which already existed
before the fourth `Step` (it had been pushed into the beam earlier and then
evicted, which resets only `newp` and leaves `oldp` stale) — is re-activated
through child expansion: it is active with `new.blank = kLogZero` although
`old.total * input(blank) = 1/4 * 1/4 ≠ 0`.  So the claimed equation
`new.blank = old.total + log p(blank)` fails for an active node that is not a
freshly created child. -/
theorem step_stale_blank_recurrence :
    (([[1, 4, 1], [1, 2, 4], [1, 4, 1]] : List (List ℚ)).foldlM
        (Step ⟨3, 2⟩ noopScorer) (Reset noopScorer)).map
      (fun s => decide (3 < s.nodes.length)) = some true
    ∧ (([[1, 4, 1], [1, 2, 4], [1, 4, 1], [4, 1, 1]] : List (List ℚ)).foldlM
        (Step ⟨3, 2⟩ noopScorer) (Reset noopScorer)).map
      (fun s => ((nd s.nodes 3).Active, decide (3 ∈ s.leaves),
        decide ((nd s.nodes 3).newp.blank
          = (nd s.nodes 3).oldp.total * inputAt (normalize [4, 1, 1]) 2)))
      = some (true, true, false) := by
  refine ⟨by decide, by decide⟩

end CTC
